import Mathlib

/-
Verification of the core training / active-learning logic of
src/segmentation/cityscapes_drn/segment.py against its specification.

The numeric values that the Python code computes in floating point are
modelled over the rationals (exact arithmetic); the NaN / infinity values
that numpy produces in the IoU computation are modelled explicitly by the
type NpF below.
-/

namespace Segment

/-- A numpy floating-point value as it arises in the IoU pipeline:
either NaN, positive infinity, or a finite rational. -/
inductive NpF where
  | nan : NpF
  | inf : NpF
  | fin (q : ℚ) : NpF
deriving DecidableEq

/-- The finite part of an NpF value (0 for NaN and infinity). -/
def NpF.finval : NpF → ℚ
  | NpF.fin q => q
  | _ => 0

/-- Numpy division on nonnegative numerators as it occurs in per_class_iu:
0/0 is NaN, x/0 with x not 0 is infinity, otherwise exact division. -/
def npDiv (a b : ℚ) : NpF :=
  if b = 0 then (if a = 0 then NpF.nan else NpF.inf) else NpF.fin (a / b)

/-- Row sum hist.sum(1) of the confusion histogram at row c. -/
def row_sum (n : ℕ) (hist : Fin n → Fin n → ℕ) (c : Fin n) : ℕ := ∑ j, hist c j

/-- Column sum hist.sum(0) of the confusion histogram at column c. -/
def col_sum (n : ℕ) (hist : Fin n → Fin n → ℕ) (c : Fin n) : ℕ := ∑ i, hist i c

/-- per_class_iu from segment.py:
np.diag(hist) / (hist.sum(1) + hist.sum(0) - np.diag(hist)). -/
def per_class_iu (n : ℕ) (hist : Fin n → Fin n → ℕ) : Fin n → NpF :=
  fun c =>
    npDiv (hist c c) ((row_sum n hist c : ℚ) + (col_sum n hist c : ℚ) - (hist c c : ℚ))

/-- np.nanmean over an array: the mean of the non-NaN entries; an infinite
entry dominates; all-NaN input yields NaN. -/
def nanmean (n : ℕ) (xs : Fin n → NpF) : NpF :=
  if ∃ c, xs c = NpF.inf then NpF.inf
  else
    if (Finset.univ.filter (fun c => xs c ≠ NpF.nan)).card = 0 then NpF.nan
    else NpF.fin ((∑ c in Finset.univ.filter (fun c => xs c ≠ NpF.nan), NpF.finval (xs c)) /
        (Finset.univ.filter (fun c => xs c ≠ NpF.nan)).card)

/-- The IoU denominator of class c, as a rational. -/
def iou_den (n : ℕ) (hist : Fin n → Fin n → ℕ) (c : Fin n) : ℚ :=
  (row_sum n hist c : ℚ) + (col_sum n hist c : ℚ) - (hist c c : ℚ)

lemma diag_le_row_sum (n : ℕ) (hist : Fin n → Fin n → ℕ) (c : Fin n) :
    hist c c ≤ row_sum n hist c :=
  Finset.single_le_sum (fun j _ => Nat.zero_le (hist c j)) (Finset.mem_univ c)

lemma diag_le_col_sum (n : ℕ) (hist : Fin n → Fin n → ℕ) (c : Fin n) :
    hist c c ≤ col_sum n hist c :=
  Finset.single_le_sum (fun i _ => Nat.zero_le (hist i c)) (Finset.mem_univ c)

lemma iou_den_eq_zero_imp (n : ℕ) (hist : Fin n → Fin n → ℕ) (c : Fin n)
    (h : iou_den n hist c = 0) : (hist c c : ℚ) = 0 := by
  have hr : (hist c c : ℚ) ≤ (row_sum n hist c : ℚ) := by
    exact_mod_cast diag_le_row_sum n hist c
  have hc : (hist c c : ℚ) ≤ (col_sum n hist c : ℚ) := by
    exact_mod_cast diag_le_col_sum n hist c
  have h0 : (0 : ℚ) ≤ (hist c c : ℚ) := by positivity
  have hcol : (0 : ℚ) ≤ (col_sum n hist c : ℚ) := by positivity
  unfold iou_den at h
  nlinarith

lemma per_class_iu_ne_inf (n : ℕ) (hist : Fin n → Fin n → ℕ) (c : Fin n) :
    per_class_iu n hist c ≠ NpF.inf := by
  intro hcon
  unfold per_class_iu npDiv at hcon
  split_ifs at hcon with h1 h2
  · exact h2 (iou_den_eq_zero_imp n hist c h1)

lemma per_class_iu_nan_iff (n : ℕ) (hist : Fin n → Fin n → ℕ) (c : Fin n) :
    per_class_iu n hist c = NpF.nan ↔ iou_den n hist c = 0 := by
  unfold per_class_iu npDiv iou_den
  by_cases hd : (row_sum n hist c : ℚ) + (col_sum n hist c : ℚ) - (hist c c : ℚ) = 0
  · have hz : (hist c c : ℚ) = 0 := iou_den_eq_zero_imp n hist c hd
    simp [hd, hz]
  · simp [hd]

lemma per_class_iu_of_den_ne (n : ℕ) (hist : Fin n → Fin n → ℕ) (c : Fin n)
    (h : iou_den n hist c ≠ 0) :
    per_class_iu n hist c = NpF.fin ((hist c c : ℚ) / iou_den n hist c) := by
  unfold per_class_iu npDiv iou_den
  unfold iou_den at h
  simp [h]

/-- C1: For every accumulated confusion histogram, the per-class IoU of class c
is hist[c][c] / (row_sum + col_sum - hist[c][c]), it is NaN exactly when that
denominator is zero, and the nanmean reported as the mean IoU is the arithmetic
mean of the per-class IoUs with the NaN entries excluded. -/
theorem c1_per_class_iou_nanmean (n : ℕ) (hist : Fin n → Fin n → ℕ) :
    (∀ c, (per_class_iu n hist c = NpF.nan ↔ iou_den n hist c = 0)) ∧
    (∀ c, iou_den n hist c ≠ 0 →
      per_class_iu n hist c = NpF.fin ((hist c c : ℚ) / iou_den n hist c)) ∧
    ((∃ c, iou_den n hist c ≠ 0) →
      nanmean n (per_class_iu n hist) =
        NpF.fin ((∑ c in Finset.univ.filter (fun c => iou_den n hist c ≠ 0),
            (hist c c : ℚ) / iou_den n hist c) /
          (Finset.univ.filter (fun c => iou_den n hist c ≠ 0)).card)) := by
  refine ⟨per_class_iu_nan_iff n hist, per_class_iu_of_den_ne n hist, ?_⟩
  intro hex
  have hfilter : Finset.univ.filter (fun c => per_class_iu n hist c ≠ NpF.nan) =
      Finset.univ.filter (fun c => iou_den n hist c ≠ 0) := by
    apply Finset.filter_congr
    intro c _
    simp [per_class_iu_nan_iff n hist c]
  have hnoinf : ¬ ∃ c, per_class_iu n hist c = NpF.inf := by
    rintro ⟨c, hc⟩
    exact per_class_iu_ne_inf n hist c hc
  obtain ⟨c0, hc0⟩ := hex
  have hmem : c0 ∈ Finset.univ.filter (fun c => iou_den n hist c ≠ 0) := by
    simp [hc0]
  have hcard : (Finset.univ.filter (fun c => iou_den n hist c ≠ 0)).card ≠ 0 := by
    intro hzero
    rw [Finset.card_eq_zero] at hzero
    rw [hzero] at hmem
    exact absurd hmem (Finset.not_mem_empty c0)
  unfold nanmean
  rw [if_neg hnoinf, hfilter, if_neg hcard]
  have hsum : (∑ c in Finset.univ.filter (fun c => iou_den n hist c ≠ 0),
      NpF.finval (per_class_iu n hist c)) =
      ∑ c in Finset.univ.filter (fun c => iou_den n hist c ≠ 0),
        (hist c c : ℚ) / iou_den n hist c := by
    apply Finset.sum_congr rfl
    intro c hc
    rw [Finset.mem_filter] at hc
    rw [per_class_iu_of_den_ne n hist c hc.2]
    rfl
  rw [hsum]

/-- Witness for C1 at a concrete 2x2 histogram. -/
theorem c1_witness :
    nanmean 2 (per_class_iu 2 (fun i j => if i = 0 ∧ j = 0 then 2 else 0)) =
      NpF.fin 1 := by
  have h := (c1_per_class_iou_nanmean 2 (fun i j => if i = 0 ∧ j = 0 then 2 else 0)).2.2
    ⟨0, by norm_num [iou_den, row_sum, col_sum, Fin.sum_univ_two]⟩
  rw [h]
  norm_num [iou_den, row_sum, col_sum, Fin.sum_univ_two, Finset.sum_filter,
    Finset.card_filter]

/-- fast_hist from segment.py:
k = (label >= 0) & (label < n);
np.bincount(n * label[k].astype(int) + pred[k], minlength=n ** 2).reshape(n, n).
The flat index list is n * label + pred over the pixels whose label lies in
[0, n).  np.bincount raises on a negative index, and the reshape to (n, n)
fails whenever the bincount output is longer than n * n, i.e. whenever some
flat index is at least n * n; both failures are modelled as none. -/
def fast_hist (pred label : List ℤ) (n : ℕ) : Option (Fin n → Fin n → ℕ) :=
  let kept := (label.zip pred).filter (fun lp => decide (0 ≤ lp.1 ∧ lp.1 < (n : ℤ)))
  let idxs := kept.map (fun lp => (n : ℤ) * lp.1 + lp.2)
  if idxs.all (fun t => decide (0 ≤ t ∧ t < (n : ℤ) ^ 2)) then
    some (fun i j => idxs.count ((n : ℤ) * ((i : ℕ) : ℤ) + ((j : ℕ) : ℤ)))
  else none

/-- One step of the in-place accumulation hist += fast_hist(...) in validate. -/
def hist_step (n : ℕ) (acc : Option (Fin n → Fin n → ℕ)) (b : List ℤ × List ℤ) :
    Option (Fin n → Fin n → ℕ) :=
  match acc, fast_hist b.1 b.2 n with
  | some h, some g => some (fun i j => h i j + g i j)
  | _, _ => none

/-- The confusion histogram accumulated over the batches of one evaluation
pass, starting from np.zeros((num_classes, num_classes)). -/
def accum_hist (n : ℕ) (batches : List (List ℤ × List ℤ)) :
    Option (Fin n → Fin n → ℕ) :=
  batches.foldl (hist_step n) (some fun _ _ => 0)

lemma flat_index_eq_iff {n : ℕ} (l p : ℤ) (i j : Fin n)
    (hp0 : 0 ≤ p) (hpn : p < (n : ℤ)) :
    (n : ℤ) * l + p = (n : ℤ) * ((i : ℕ) : ℤ) + ((j : ℕ) : ℤ) ↔
      l = ((i : ℕ) : ℤ) ∧ p = ((j : ℕ) : ℤ) := by
  have hin : ((i : ℕ) : ℤ) < (n : ℤ) := by exact_mod_cast i.isLt
  have hjn : ((j : ℕ) : ℤ) < (n : ℤ) := by exact_mod_cast j.isLt
  have hi0 : (0 : ℤ) ≤ ((i : ℕ) : ℤ) := Int.natCast_nonneg _
  have hj0 : (0 : ℤ) ≤ ((j : ℕ) : ℤ) := Int.natCast_nonneg _
  have hn : (0 : ℤ) < (n : ℤ) := lt_of_le_of_lt hp0 hpn
  constructor
  · intro h
    have hd : (n : ℤ) * (l - ((i : ℕ) : ℤ)) = ((j : ℕ) : ℤ) - p := by
      linear_combination h
    have hli : l = ((i : ℕ) : ℤ) := by
      rcases lt_trichotomy l ((i : ℕ) : ℤ) with hlt | heq | hgt
      · have h1 : l - ((i : ℕ) : ℤ) ≤ -1 := by omega
        nlinarith
      · exact heq
      · have h1 : 1 ≤ l - ((i : ℕ) : ℤ) := by omega
        nlinarith
    refine ⟨hli, ?_⟩
    rw [hli] at h
    omega
  · rintro ⟨h1, h2⟩
    rw [h1, h2]

/-- When every prediction that accompanies an in-range label is itself in
[0, n), fast_hist succeeds and its entry (i, j) counts exactly the pixels
with ground-truth class i and predicted class j. -/
lemma fast_hist_spec (n : ℕ) (pred label : List ℤ)
    (hpred : ∀ lp ∈ label.zip pred,
      0 ≤ lp.1 ∧ lp.1 < (n : ℤ) → 0 ≤ lp.2 ∧ lp.2 < (n : ℤ)) :
    fast_hist pred label n = some (fun (i j : Fin n) =>
      (label.zip pred).countP
        (fun lp => decide (lp.1 = ((i : ℕ) : ℤ) ∧ lp.2 = ((j : ℕ) : ℤ)))) := by
  unfold fast_hist
  have hkept : ∀ lp ∈ (label.zip pred).filter
      (fun lp => decide (0 ≤ lp.1 ∧ lp.1 < (n : ℤ))),
      (0 ≤ lp.1 ∧ lp.1 < (n : ℤ)) ∧ (0 ≤ lp.2 ∧ lp.2 < (n : ℤ)) := by
    intro lp hlp
    rw [List.mem_filter] at hlp
    have h1 : 0 ≤ lp.1 ∧ lp.1 < (n : ℤ) := by simpa using hlp.2
    exact ⟨h1, hpred lp hlp.1 h1⟩
  have hall : (((label.zip pred).filter
        (fun lp => decide (0 ≤ lp.1 ∧ lp.1 < (n : ℤ)))).map
        (fun lp => (n : ℤ) * lp.1 + lp.2)).all
        (fun t => decide (0 ≤ t ∧ t < (n : ℤ) ^ 2)) = true := by
    rw [List.all_eq_true]
    intro t ht
    rw [List.mem_map] at ht
    obtain ⟨lp, hlp, rfl⟩ := ht
    obtain ⟨⟨hl0, hln⟩, hp0, hpn⟩ := hkept lp hlp
    have hgoal : 0 ≤ (n : ℤ) * lp.1 + lp.2 ∧ (n : ℤ) * lp.1 + lp.2 < (n : ℤ) ^ 2 := by
      have hn : (0 : ℤ) ≤ (n : ℤ) := Int.natCast_nonneg _
      constructor
      · have := mul_nonneg hn hl0
        linarith
      · nlinarith
    simpa using hgoal
  rw [if_pos hall]
  congr 1
  funext i j
  rw [List.count_eq_countP, List.countP_map, List.countP_filter]
  apply List.countP_congr
  intro lp hlp
  simp only [Function.comp_apply, Bool.and_eq_true, decide_eq_true_eq, beq_iff_eq]
  constructor
  · rintro ⟨hflat, hrange⟩
    have hp : 0 ≤ lp.2 ∧ lp.2 < (n : ℤ) := hpred lp hlp hrange
    exact (flat_index_eq_iff lp.1 lp.2 i j hp.1 hp.2).1 hflat
  · rintro ⟨h1, h2⟩
    have hin : ((i : ℕ) : ℤ) < (n : ℤ) := by exact_mod_cast i.isLt
    have hjn : ((j : ℕ) : ℤ) < (n : ℤ) := by exact_mod_cast j.isLt
    refine ⟨?_, ?_⟩
    · rw [h1, h2]
    · exact ⟨by rw [h1]; exact Int.natCast_nonneg _, by rw [h1]; exact hin⟩

lemma accum_foldl (n : ℕ) : ∀ (batches : List (List ℤ × List ℤ))
    (h0 : Fin n → Fin n → ℕ),
    (∀ b ∈ batches, (fast_hist b.1 b.2 n).isSome) →
    batches.foldl (hist_step n) (some h0) =
      some (fun i j => h0 i j +
        (batches.map (fun b =>
          ((fast_hist b.1 b.2 n).getD (fun _ _ => 0)) i j)).sum)
  | [], h0, _ => by simp
  | b :: t, h0, hok => by
    obtain ⟨g, hg⟩ := Option.isSome_iff_exists.1 (hok b (List.mem_cons_self b t))
    have ih := accum_foldl n t (fun i j => h0 i j + g i j)
      (fun b hb => hok b (List.mem_cons_of_mem _ hb))
    simp only [List.foldl_cons]
    have hstep : hist_step n (some h0) b = some (fun i j => h0 i j + g i j) := by
      unfold hist_step
      rw [hg]
    rw [hstep, ih]
    congr 1
    funext i j
    simp [hg]
    omega

lemma sum_ite_pair (n : ℕ) (i0 j0 : Fin n) :
    (∑ i : Fin n, ∑ j : Fin n, (if i = i0 ∧ j = j0 then (1 : ℕ) else 0)) = 1 := by
  have h : ∀ i j : Fin n, (if i = i0 ∧ j = j0 then (1 : ℕ) else 0) =
      (if i = i0 then (1 : ℕ) else 0) * (if j = j0 then (1 : ℕ) else 0) := by
    intro i j
    by_cases h1 : i = i0 <;> by_cases h2 : j = j0 <;> simp [h1, h2]
  simp only [h]
  rw [← Finset.sum_mul_sum]
  simp

/-- Summed over all (i, j), the per-entry pixel counts add up to the number
of pixels whose label lies in [0, n). -/
lemma sum_countP_pairs (n : ℕ) : ∀ (L : List (ℤ × ℤ)),
    (∀ lp ∈ L, 0 ≤ lp.1 ∧ lp.1 < (n : ℤ) → 0 ≤ lp.2 ∧ lp.2 < (n : ℤ)) →
    (∑ i : Fin n, ∑ j : Fin n, L.countP
        (fun lp => decide (lp.1 = ((i : ℕ) : ℤ) ∧ lp.2 = ((j : ℕ) : ℤ))))
      = L.countP (fun lp => decide (0 ≤ lp.1 ∧ lp.1 < (n : ℤ)))
  | [], _ => by simp
  | a :: t, hL => by
    have ih := sum_countP_pairs n t (fun lp h => hL lp (List.mem_cons_of_mem a h))
    simp only [List.countP_cons]
    rw [Finset.sum_comm.symm.trans Finset.sum_comm]
    simp only [Finset.sum_add_distrib]
    rw [ih]
    by_cases hin : 0 ≤ a.1 ∧ a.1 < (n : ℤ)
    · obtain ⟨hp0, hpn⟩ := hL a (List.mem_cons_self a t) hin
      have hi0lt : a.1.toNat < n := by omega
      have hj0lt : a.2.toNat < n := by omega
      have hind : ∀ i j : Fin n,
          (if (decide (a.1 = ((i : ℕ) : ℤ) ∧ a.2 = ((j : ℕ) : ℤ))) = true
            then (1 : ℕ) else 0) =
          (if i = (⟨a.1.toNat, hi0lt⟩ : Fin n) ∧ j = (⟨a.2.toNat, hj0lt⟩ : Fin n)
            then (1 : ℕ) else 0) := by
        intro i j
        congr 1
        simp only [decide_eq_true_eq, eq_iff_iff]
        constructor
        · rintro ⟨h1, h2⟩
          constructor
          · apply Fin.ext
            simp only [Fin.val_mk]
            omega
          · apply Fin.ext
            simp only [Fin.val_mk]
            omega
        · rintro ⟨rfl, rfl⟩
          simp only [Fin.val_mk]
          omega
      simp only [hind]
      rw [sum_ite_pair]
      have : (decide (0 ≤ a.1 ∧ a.1 < (n : ℤ))) = true := by simpa using hin
      rw [this]
      simp
    · have hind : ∀ i j : Fin n,
          (if (decide (a.1 = ((i : ℕ) : ℤ) ∧ a.2 = ((j : ℕ) : ℤ))) = true
            then (1 : ℕ) else 0) = 0 := by
        intro i j
        have hne : ¬ (a.1 = ((i : ℕ) : ℤ) ∧ a.2 = ((j : ℕ) : ℤ)) := by
          rintro ⟨h1, _⟩
          apply hin
          have hilt : ((i : ℕ) : ℤ) < (n : ℤ) := by exact_mod_cast i.isLt
          exact ⟨by rw [h1]; exact Int.natCast_nonneg _, by rw [h1]; exact hilt⟩
        simp [hne]
      simp only [hind]
      have : (decide (0 ≤ a.1 ∧ a.1 < (n : ℤ))) = false := by simpa using hin
      rw [this]
      simp

/-- Counterexample to C2 as stated: the claim quantifies over every pair of
prediction and label arrays, but for pred = [5], label = [1], n = 2 the
in-range label 1 is kept while the out-of-range prediction 5 drives the flat
bincount index to 7, so the update raises instead of producing a histogram
with the described counts. -/
theorem c2_counterexample :
    fast_hist [(5 : ℤ)] [(1 : ℤ)] 2 = none ∧
    ¬ ∃ h : Fin 2 → Fin 2 → ℕ, fast_hist [(5 : ℤ)] [(1 : ℤ)] 2 = some h := by
  refine ⟨rfl, ?_⟩
  rintro ⟨h, hcon⟩
  rw [show fast_hist [(5 : ℤ)] [(1 : ℤ)] 2 = none from rfl] at hcon
  exact Option.noConfusion hcon

/-- C2 (amended): for flattened prediction/label arrays in which every
prediction paired with an in-range label is itself a class in [0, n), the
histogram update discards every pixel whose label lies outside [0, n), adds
exactly one count to entry (i, j) for every remaining pixel with
ground-truth class i and predicted class j, and the histogram accumulates
additively across the batches of one evaluation pass. -/
theorem c2_hist_update (n : ℕ) (batches : List (List ℤ × List ℤ))
    (hpred : ∀ b ∈ batches, ∀ lp ∈ b.2.zip b.1,
      0 ≤ lp.1 ∧ lp.1 < (n : ℤ) → 0 ≤ lp.2 ∧ lp.2 < (n : ℤ)) :
    (∀ b ∈ batches, fast_hist b.1 b.2 n = some (fun (i j : Fin n) =>
        (b.2.zip b.1).countP
          (fun lp => decide (lp.1 = ((i : ℕ) : ℤ) ∧ lp.2 = ((j : ℕ) : ℤ))))) ∧
    ∃ H, accum_hist n batches = some H ∧ ∀ i j,
      H i j = (batches.map (fun b => (b.2.zip b.1).countP
        (fun lp => decide (lp.1 = ((i : ℕ) : ℤ) ∧ lp.2 = ((j : ℕ) : ℤ))))).sum := by
  have hspec : ∀ b ∈ batches, fast_hist b.1 b.2 n = some (fun (i j : Fin n) =>
      (b.2.zip b.1).countP
        (fun lp => decide (lp.1 = ((i : ℕ) : ℤ) ∧ lp.2 = ((j : ℕ) : ℤ)))) :=
    fun b hb => fast_hist_spec n b.1 b.2 (hpred b hb)
  refine ⟨hspec, ?_⟩
  have hsome : ∀ b ∈ batches, (fast_hist b.1 b.2 n).isSome := by
    intro b hb
    rw [hspec b hb]
    rfl
  have hfold := accum_foldl n batches (fun _ _ => 0) hsome
  refine ⟨_, hfold, ?_⟩
  intro i j
  simp only [zero_add]
  congr 1
  apply List.map_congr_left
  intro b hb
  rw [hspec b hb]
  rfl

/-- Witness for C2 on two concrete batches with two pixels each. -/
theorem c2_witness : ∃ H,
    accum_hist 2 [([0, 1], [0, 255]), ([1, 1], [1, 0])] = some H ∧ H 1 1 = 1 := by
  obtain ⟨H, hH, hentry⟩ :=
    (c2_hist_update 2 [([0, 1], [0, 255]), ([1, 1], [1, 0])] (by decide)).2
  refine ⟨H, hH, ?_⟩
  rw [hentry 1 1]
  decide

/-- C10: fast_hist range-filters only the label array: when every prediction
paired with an in-range label is itself in [0, n), the result is an n-by-n
count matrix whose entries sum to the number of in-range-label pixels, while
an in-range label paired with a prediction that is at least n makes the
flattened bincount longer than n^2 and the reshape fail instead of the pixel
being ignored. -/
theorem c10_fast_hist_pred_unfiltered (n : ℕ) (pred label : List ℤ)
    (hpred : ∀ lp ∈ label.zip pred,
      0 ≤ lp.1 ∧ lp.1 < (n : ℤ) → 0 ≤ lp.2 ∧ lp.2 < (n : ℤ)) :
    (∃ h, fast_hist pred label n = some h ∧
      (∑ i : Fin n, ∑ j : Fin n, h i j) =
        (label.zip pred).countP (fun lp => decide (0 ≤ lp.1 ∧ lp.1 < (n : ℤ)))) ∧
    fast_hist [(2 : ℤ)] [(1 : ℤ)] 2 = none := by
  refine ⟨⟨_, fast_hist_spec n pred label hpred, ?_⟩, rfl⟩
  exact sum_countP_pairs n (label.zip pred) hpred

/-- Witness for C10 on a concrete two-pixel array with one ignored label. -/
theorem c10_witness : ∃ h,
    fast_hist [(0 : ℤ), 1] [(0 : ℤ), 255] 2 = some h ∧
    (∑ i : Fin 2, ∑ j : Fin 2, h i j) = 1 := by
  obtain ⟨⟨h, hsome, hsum⟩, _⟩ :=
    c10_fast_hist_pred_unfiltered 2 [0, 1] [0, 255] (by decide)
  refine ⟨h, hsome, ?_⟩
  rw [hsum]
  decide

/-- The argparse fields consumed by adjust_learning_rate. -/
structure LrArgs where
  lr : ℝ
  lr_mode : String
  step : ℕ
  epochs : ℕ

/-- adjust_learning_rate from segment.py: in step mode the rate is
lr * 0.1 ** (epoch // step); in poly mode lr * (1 - epoch / epochs) ** 0.9
(a real power); any other mode raises ValueError. -/
noncomputable def adjust_learning_rate (args : LrArgs) (epoch : ℕ) : Except String ℝ :=
  if args.lr_mode = "step" then
    Except.ok (args.lr * (1 / 10) ^ (epoch / args.step))
  else if args.lr_mode = "poly" then
    Except.ok (args.lr * (1 - (epoch : ℝ) / (args.epochs : ℝ)) ^ ((9 : ℝ) / 10))
  else
    Except.error ("Unknown lr mode " ++ args.lr_mode)

/-- C3: in step mode the learning rate at epoch e is base_lr * 0.1^(e // step),
so base_lr = 0.1, step = 10 gives 0.001 at epoch 25; in poly mode it is
base_lr * (1 - e / epochs)^0.9, so base_lr = 0.1, epochs = 100 gives
0.1 * 0.5^0.9 at epoch 50; any other mode string is a fatal error. -/
theorem c3_lr_schedule (args : LrArgs) (epoch : ℕ) :
    (args.lr_mode = "step" →
      adjust_learning_rate args epoch =
        Except.ok (args.lr * (1 / 10) ^ (epoch / args.step))) ∧
    (args.lr_mode = "poly" →
      adjust_learning_rate args epoch =
        Except.ok (args.lr * (1 - (epoch : ℝ) / (args.epochs : ℝ)) ^ ((9 : ℝ) / 10))) ∧
    (args.lr_mode ≠ "step" → args.lr_mode ≠ "poly" →
      ∃ msg, adjust_learning_rate args epoch = Except.error msg) ∧
    adjust_learning_rate ⟨1 / 10, "step", 10, 100⟩ 25 = Except.ok (1 / 1000) ∧
    adjust_learning_rate ⟨1 / 10, "poly", 10, 100⟩ 50 =
      Except.ok ((1 / 10) * (1 / 2) ^ ((9 : ℝ) / 10)) := by
  refine ⟨?_, ?_, ?_, ?_, ?_⟩
  · intro h
    simp [adjust_learning_rate, h]
  · intro h
    simp [adjust_learning_rate, h]
  · intro h1 h2
    refine ⟨"Unknown lr mode " ++ args.lr_mode, ?_⟩
    simp [adjust_learning_rate, h1, h2]
  · show adjust_learning_rate ⟨1 / 10, "step", 10, 100⟩ 25 = Except.ok (1 / 1000)
    simp only [adjust_learning_rate, if_pos rfl]
    norm_num
  · show adjust_learning_rate ⟨1 / 10, "poly", 10, 100⟩ 50 =
      Except.ok ((1 / 10) * (1 / 2) ^ ((9 : ℝ) / 10))
    have hmode : ("poly" : String) ≠ "step" := by decide
    simp only [adjust_learning_rate, if_neg hmode, if_pos rfl]
    norm_num

/-- Witness for C3 at concrete schedule settings, including a rejected mode. -/
theorem c3_witness :
    adjust_learning_rate ⟨1 / 10, "step", 10, 100⟩ 25 = Except.ok (1 / 1000) ∧
    ∃ msg, adjust_learning_rate ⟨1 / 10, "sinusoid", 10, 100⟩ 0 =
      Except.error msg := by
  refine ⟨(c3_lr_schedule ⟨1 / 10, "step", 10, 100⟩ 25).2.2.2.1, ?_⟩
  exact (c3_lr_schedule ⟨1 / 10, "sinusoid", 10, 100⟩ 0).2.2.1
    (by decide) (by decide)

/-- AverageMeter from segment.py: current value, average, running sum, count. -/
structure AverageMeter where
  val : ℚ
  avg : ℚ
  sum : ℚ
  count : ℕ
deriving DecidableEq

/-- reset(): all fields zero. -/
def AverageMeter.reset : AverageMeter := ⟨0, 0, 0, 0⟩

/-- update(val, n): store val, add val * n to the sum, add n to the count,
and recompute avg = sum / count. -/
def AverageMeter.update (m : AverageMeter) (v : ℚ) (n : ℕ) : AverageMeter :=
  ⟨v, (m.sum + v * (n : ℚ)) / (((m.count + n : ℕ)) : ℚ),
    m.sum + v * (n : ℚ), m.count + n⟩

/-- A sequence of update(v, 1) calls applied in order. -/
def AverageMeter.updates (m : AverageMeter) (vs : List ℚ) : AverageMeter :=
  vs.foldl (fun acc v => acc.update v 1) m

lemma updates_sum (vs : List ℚ) : ∀ m : AverageMeter,
    (m.updates vs).sum = m.sum + vs.sum := by
  induction vs with
  | nil => intro m; simp [AverageMeter.updates]
  | cons v t ih =>
    intro m
    have := ih (m.update v 1)
    simp only [AverageMeter.updates, List.foldl_cons] at this ⊢
    rw [this]
    simp [AverageMeter.update]
    ring

lemma updates_count (vs : List ℚ) : ∀ m : AverageMeter,
    (m.updates vs).count = m.count + vs.length := by
  induction vs with
  | nil => intro m; simp [AverageMeter.updates]
  | cons v t ih =>
    intro m
    have := ih (m.update v 1)
    simp only [AverageMeter.updates, List.foldl_cons] at this ⊢
    rw [this]
    simp [AverageMeter.update]
    omega

lemma updates_avg (vs : List ℚ) : ∀ (m : AverageMeter), vs ≠ [] →
    (m.updates vs).avg = (m.updates vs).sum / (((m.updates vs).count : ℕ) : ℚ) := by
  induction vs with
  | nil => intro m h; exact absurd rfl h
  | cons v t ih =>
    intro m _
    cases t with
    | nil => simp [AverageMeter.updates, AverageMeter.update]
    | cons w u =>
      have := ih (m.update v 1) (by simp)
      simpa [AverageMeter.updates] using this

lemma updates_val (vs : List ℚ) : ∀ (m : AverageMeter) (h : vs ≠ []),
    (m.updates vs).val = vs.getLast h := by
  induction vs with
  | nil => intro m h; exact absurd rfl h
  | cons v t ih =>
    intro m _
    cases t with
    | nil => simp [AverageMeter.updates, AverageMeter.update]
    | cons w u =>
      have := ih (m.update v 1) (by simp)
      simp only [AverageMeter.updates, List.foldl_cons] at this ⊢
      rw [this]
      simp [List.getLast_cons]

/-- C4: after reset followed by update(v1, 1), ..., update(vn, 1), the meter
holds sum = v1 + ... + vn, count = n, val = vn, and avg = sum / n exactly;
reset sets all four fields to zero. -/
theorem c4_average_meter (vs : List ℚ) (hne : vs ≠ []) :
    (AverageMeter.reset.updates vs).sum = vs.sum ∧
    (AverageMeter.reset.updates vs).count = vs.length ∧
    (AverageMeter.reset.updates vs).val = vs.getLast hne ∧
    (AverageMeter.reset.updates vs).avg = vs.sum / (vs.length : ℚ) ∧
    AverageMeter.reset = ⟨0, 0, 0, 0⟩ := by
  have hsum : (AverageMeter.reset.updates vs).sum = vs.sum := by
    rw [updates_sum vs AverageMeter.reset]
    simp [AverageMeter.reset]
  have hcount : (AverageMeter.reset.updates vs).count = vs.length := by
    rw [updates_count vs AverageMeter.reset]
    simp [AverageMeter.reset]
  refine ⟨hsum, hcount, updates_val vs AverageMeter.reset hne, ?_, rfl⟩
  rw [updates_avg vs AverageMeter.reset hne, hsum, hcount]

/-- Witness for C4 on the concrete stream 3, 5. -/
theorem c4_witness :
    (AverageMeter.reset.updates [3, 5]).avg = 4 ∧
    (AverageMeter.reset.updates [3, 5]).count = 2 ∧
    (AverageMeter.reset.updates [3, 5]).val = 5 := by
  have h := c4_average_meter [3, 5] (by simp)
  refine ⟨?_, by simpa using h.2.1, by simpa using h.2.2.1⟩
  rw [h.2.2.2.1]
  norm_num

/-- Per-pixel NLLLoss with ignore_index = 255 and reduction none, as built in
train_seg: the loss at an ignored pixel is 0, otherwise it is minus the
predicted log-probability of the target class.  Classes are indexed by ℕ;
valid targets are below the class count or equal to the 255 sentinel. -/
def nll_loss_none (N H W : ℕ) (output : Fin N → ℕ → Fin H → Fin W → ℚ)
    (target : Fin N → Fin H → Fin W → ℕ) : Fin N → Fin H → Fin W → ℚ :=
  fun b h w => if target b h w = 255 then 0 else -(output b (target b h w) h w)

/-- loss.mean([1, 2]) in train(): reduce the per-pixel loss to one scalar per
image by averaging over the two spatial dimensions only. -/
def spatial_mean (N H W : ℕ) (loss : Fin N → Fin H → Fin W → ℚ) : Fin N → ℚ :=
  fun b => (∑ h, ∑ w, loss b h w) / ((H : ℚ) * (W : ℚ))

/-- C6: the per-pixel loss is zero at sentinel-labelled (255) pixels and
minus the target log-probability elsewhere; the reduction to a per-image
scalar averages over the two spatial dimensions only, producing a length-N
vector whose entry b depends only on the pixels of image b and never on the
other images in the batch. -/
theorem c6_per_image_loss (N H W : ℕ) (output : Fin N → ℕ → Fin H → Fin W → ℚ)
    (target : Fin N → Fin H → Fin W → ℕ) :
    (∀ b h w, target b h w = 255 → nll_loss_none N H W output target b h w = 0) ∧
    (∀ b h w, target b h w ≠ 255 →
      nll_loss_none N H W output target b h w = -(output b (target b h w) h w)) ∧
    (∀ b, spatial_mean N H W (nll_loss_none N H W output target) b =
      (∑ h, ∑ w, nll_loss_none N H W output target b h w) / ((H : ℚ) * (W : ℚ))) ∧
    (∀ (output2 : Fin N → ℕ → Fin H → Fin W → ℚ)
       (target2 : Fin N → Fin H → Fin W → ℕ) (b : Fin N),
      (∀ c h w, output b c h w = output2 b c h w) →
      (∀ h w, target b h w = target2 b h w) →
      spatial_mean N H W (nll_loss_none N H W output target) b =
        spatial_mean N H W (nll_loss_none N H W output2 target2) b) := by
  refine ⟨?_, ?_, fun b => rfl, ?_⟩
  · intro b h w hw
    simp [nll_loss_none, hw]
  · intro b h w hw
    simp [nll_loss_none, hw]
  · intro output2 target2 b hout htar
    unfold spatial_mean
    congr 1
    apply Finset.sum_congr rfl
    intro h _
    apply Finset.sum_congr rfl
    intro w _
    unfold nll_loss_none
    rw [htar h w, hout (target2 b h w) h w]

/-- Witness for C6 on a one-pixel batch with an ignored pixel. -/
theorem c6_witness :
    nll_loss_none 1 1 1 (fun _ _ _ _ => 7) (fun _ _ _ => 255) 0 0 0 = 0 ∧
    nll_loss_none 1 1 1 (fun _ _ _ _ => 7) (fun _ _ _ => 0) 0 0 0 = -7 := by
  constructor
  · exact (c6_per_image_loss 1 1 1 (fun _ _ _ _ => 7) (fun _ _ _ => 255)).1
      0 0 0 rfl
  · exact (c6_per_image_loss 1 1 1 (fun _ _ _ _ => 7) (fun _ _ _ => 0)).2.1
      0 0 0 (by decide)

/-- Whether train() runs the model with detach_lp = True: only under
loss-prediction active learning, from epoch 150 on. -/
def lp_detached (use_lp : Bool) (epoch : ℕ) : Bool :=
  use_lp && decide (¬ epoch < 150)

/-- The loss assembled by train() for one batch, given the per-image
segmentation losses (after loss.mean([1, 2])) and the ranking loss: the
ranking term joins the objective only when loss-prediction active learning
is on and epoch > 1 (the warm-up test); otherwise the loss is the plain
batch mean. -/
def train_batch_loss (use_lp : Bool) (epoch : ℕ) (lamda : ℚ)
    (seg_losses : List ℚ) (ranking_loss : ℚ) : ℚ :=
  if use_lp = true ∧ epoch > 1 then
    seg_losses.sum / (seg_losses.length : ℚ) + lamda * ranking_loss
  else
    seg_losses.sum / (seg_losses.length : ℚ)

/-- C5: with loss-prediction active learning on, during warm-up (epoch 0 and
epoch 1) the batch loss is the plain mean segmentation loss with no ranking
contribution; after warm-up it is segmentation mean + lamda * ranking loss;
and from epoch 150 on the predicted-loss head runs with its gradient
detached from the backbone. -/
theorem c5_warmup_and_detach (epoch : ℕ) (lamda : ℚ) (seg_losses : List ℚ)
    (ranking_loss : ℚ) :
    (epoch ≤ 1 →
      train_batch_loss true epoch lamda seg_losses ranking_loss =
        seg_losses.sum / (seg_losses.length : ℚ)) ∧
    (1 < epoch →
      train_batch_loss true epoch lamda seg_losses ranking_loss =
        seg_losses.sum / (seg_losses.length : ℚ) + lamda * ranking_loss) ∧
    (150 ≤ epoch → lp_detached true epoch = true) ∧
    (epoch < 150 → lp_detached true epoch = false) := by
  refine ⟨?_, ?_, ?_, ?_⟩
  · intro h
    have hcond : ¬ (true = true ∧ epoch > 1) := by
      rintro ⟨_, hgt⟩
      omega
    unfold train_batch_loss
    rw [if_neg hcond]
  · intro h
    simp [train_batch_loss, h]
  · intro h
    simp [lp_detached]
    omega
  · intro h
    simp [lp_detached]
    omega

/-- Witness for C5 at epochs 0, 2 and 150. -/
theorem c5_witness :
    train_batch_loss true 0 1 [2, 4] 100 = 3 ∧
    train_batch_loss true 2 1 [2, 4] 100 = 103 ∧
    lp_detached true 150 = true ∧
    lp_detached true 2 = false := by
  refine ⟨?_, ?_, ?_, ?_⟩
  · rw [(c5_warmup_and_detach 0 1 [2, 4] 100).1 (by omega)]
    norm_num
  · rw [(c5_warmup_and_detach 2 1 [2, 4] 100).2.1 (by omega)]
    norm_num
  · exact (c5_warmup_and_detach 150 1 [2, 4] 100).2.2.1 (by omega)
  · exact (c5_warmup_and_detach 2 1 [2, 4] 100).2.2.2 (by omega)

/-- The contribution of one batch to the ranking counters (total, correct)
in train(): for l1 in range(batch_size), for l2 in range(l1), count the pair,
and count it as correct when
(loss[l1] - loss[l2]) * (loss_pred[l1] - loss_pred[l2]) > 0. -/
def rank_batch (lossv lossp : List ℚ) (acc : ℕ × ℕ) : ℕ × ℕ :=
  (List.range lossv.length).foldl (fun a1 l1 =>
    (List.range l1).foldl (fun a2 l2 =>
      (a2.1 + 1,
       a2.2 + if (lossv.getD l1 0 - lossv.getD l2 0) *
                (lossp.getD l1 0 - lossp.getD l2 0) > 0 then 1 else 0)) a1) acc

/-- The counters over the batches of one call of train(): total_ranked and
correctly_ranked are initialized to 0 at the top of train(), which is called
once per epoch. -/
def train_epoch_counters (batches : List (List ℚ × List ℚ)) : ℕ × ℕ :=
  batches.foldl (fun a b => rank_batch b.1 b.2 a) (0, 0)

/-- The counter values observed at the end of each epoch of a run: the
call of train() made by each epoch recomputes its counters from (0, 0). -/
def run_rank_counters (epochs : List (List (List ℚ × List ℚ))) : List (ℕ × ℕ) :=
  epochs.map train_epoch_counters

/-- The ranking-accuracy estimate logged by train():
correctly_ranked / (total_ranked + 0.00001). -/
def rank_estimate (acc : ℕ × ℕ) : ℚ :=
  (acc.2 : ℚ) / ((acc.1 : ℚ) + 1 / 100000)

lemma foldl_pair_range (c d : ℕ → ℕ) : ∀ (n : ℕ) (acc : ℕ × ℕ),
    (List.range n).foldl (fun a i => (a.1 + c i, a.2 + d i)) acc =
      (acc.1 + ∑ i in Finset.range n, c i,
       acc.2 + ∑ i in Finset.range n, d i)
  | 0, acc => by simp
  | n + 1, acc => by
    rw [List.range_succ, List.foldl_append, foldl_pair_range c d n acc]
    simp only [List.foldl_cons, List.foldl_nil, Finset.sum_range_succ,
      Prod.mk.injEq]
    exact ⟨by omega, by omega⟩

/-- Counterexample to C7 as stated: in a run whose first epoch sees one
batch of two samples and whose second epoch sees one batch of one sample,
the counters stand at (1, 1) after epoch one and at (0, 0) after epoch two,
so they do not accumulate monotonically across the run; moreover the logged
estimate divides by total + 0.00001, so at (1, 1) it is not 1/1. -/
theorem c7_counterexample :
    run_rank_counters [[([1, 2], [1, 2])], [([1], [1])]] = [(1, 1), (0, 0)] ∧
    ¬ List.Chain' (fun a b : ℕ × ℕ => a.1 ≤ b.1 ∧ a.2 ≤ b.2)
      (run_rank_counters [[([1, 2], [1, 2])], [([1], [1])]]) ∧
    rank_estimate (1, 1) ≠ 1 := by
  have h : run_rank_counters [[([1, 2], [1, 2])], [([1], [1])]] =
      [(1, 1), (0, 0)] := by
    norm_num [run_rank_counters, train_epoch_counters, rank_batch,
      List.range_succ]
  refine ⟨h, ?_, ?_⟩
  · rw [h]
    simp [List.chain'_cons]
  · norm_num [rank_estimate]

/-- C7 (amended): within one epoch, each batch of size bs adds bs*(bs-1)/2
pairs to total_ranked and the number of sign-agreeing pairs to
correctly_ranked, so both counters grow monotonically across the batches of
that epoch; the counters restart from (0, 0) on every call of train(), i.e.
on every epoch; and the logged ranking-accuracy estimate is
correctly_ranked / (total_ranked + 0.00001). -/
theorem c7_rank_counters_amended (lossv lossp : List ℚ) (acc : ℕ × ℕ)
    (epochs : List (List (List ℚ × List ℚ))) :
    rank_batch lossv lossp acc =
      (acc.1 + ∑ l1 in Finset.range lossv.length, l1,
       acc.2 + ∑ l1 in Finset.range lossv.length, ∑ l2 in Finset.range l1,
         if (lossv.getD l1 0 - lossv.getD l2 0) *
            (lossp.getD l1 0 - lossp.getD l2 0) > 0 then 1 else 0) ∧
    (acc.1 ≤ (rank_batch lossv lossp acc).1 ∧
     acc.2 ≤ (rank_batch lossv lossp acc).2) ∧
    run_rank_counters epochs = epochs.map train_epoch_counters ∧
    rank_estimate acc = (acc.2 : ℚ) / ((acc.1 : ℚ) + 1 / 100000) := by
  have hchar : rank_batch lossv lossp acc =
      (acc.1 + ∑ l1 in Finset.range lossv.length, l1,
       acc.2 + ∑ l1 in Finset.range lossv.length, ∑ l2 in Finset.range l1,
         if (lossv.getD l1 0 - lossv.getD l2 0) *
            (lossp.getD l1 0 - lossp.getD l2 0) > 0 then 1 else 0) := by
    unfold rank_batch
    have hinner : ∀ (l1 : ℕ) (a : ℕ × ℕ),
        (List.range l1).foldl (fun a2 l2 =>
          (a2.1 + 1,
           a2.2 + if (lossv.getD l1 0 - lossv.getD l2 0) *
                    (lossp.getD l1 0 - lossp.getD l2 0) > 0 then 1 else 0)) a =
        (a.1 + l1,
         a.2 + ∑ l2 in Finset.range l1,
           if (lossv.getD l1 0 - lossv.getD l2 0) *
              (lossp.getD l1 0 - lossp.getD l2 0) > 0 then 1 else 0) := by
      intro l1 a
      have := foldl_pair_range (fun _ => 1)
        (fun l2 => if (lossv.getD l1 0 - lossv.getD l2 0) *
            (lossp.getD l1 0 - lossp.getD l2 0) > 0 then 1 else 0) l1 a
      simpa using this
    simp only [hinner]
    have := foldl_pair_range (fun l1 => l1)
      (fun l1 => ∑ l2 in Finset.range l1,
        if (lossv.getD l1 0 - lossv.getD l2 0) *
           (lossp.getD l1 0 - lossp.getD l2 0) > 0 then 1 else 0)
      lossv.length acc
    simpa using this
  refine ⟨hchar, ?_, rfl, rfl⟩
  rw [hchar]
  exact ⟨Nat.le_add_right _ _, Nat.le_add_right _ _⟩

/-- The checkpoint file names used by train_seg and save_checkpoint:
checkpoint_latest.pth.tar, model_best.pth.tar, and the zero-padded
epoch-numbered history names checkpoint_{epoch+1:03d}.pth.tar. -/
inductive CkptFile where
  | latest : CkptFile
  | best : CkptFile
  | history (k : ℕ) : CkptFile
deriving DecidableEq

/-- One checkpoint write: which file, and the cycle and epoch whose state is
written into it. -/
structure CkptWrite where
  file : CkptFile
  cycle : ℕ
  epoch : ℕ
deriving DecidableEq

/-- The writes performed at the end of one epoch in train_seg:
save_checkpoint always writes checkpoint_latest, copies it to model_best when
prec1 > best_prec1, and when (epoch + 1) % save_iter == 0 the latest
checkpoint is additionally copied to the epoch-numbered history file. -/
def epoch_writes (save_iter cycle epoch : ℕ) (best prec1 : ℚ) :
    List CkptWrite :=
  [⟨CkptFile.latest, cycle, epoch⟩] ++
  (if prec1 > best then [⟨CkptFile.best, cycle, epoch⟩] else []) ++
  (if (epoch + 1) % save_iter = 0 then
    [⟨CkptFile.history (epoch + 1), cycle, epoch⟩] else [])

/-- The epoch loop of one cycle: best_prec1 starts at 0 and is raised to
max(prec1, best_prec1) after each epoch; the result is the write trace of
the cycle together with the final best accuracy. -/
def cycle_trace (save_iter E cycle : ℕ) (precs : ℕ → ℚ) :
    List CkptWrite × ℚ :=
  (List.range E).foldl
    (fun st e => (st.1 ++ epoch_writes save_iter cycle e st.2 (precs e),
                  max (precs e) st.2))
    ([], 0)

/-- The whole run: cycles 0..C-1, each with a freshly reset best_prec1,
all writing into the same save_path. -/
def run_trace (save_iter E C : ℕ) (precs : ℕ → ℕ → ℚ) : List CkptWrite :=
  (List.range C).flatMap (fun c => (cycle_trace save_iter E c (precs c)).1)

/-- The running best validation accuracy seen before epoch e of a cycle
(0 before any epoch). -/
def best_before (precs : ℕ → ℚ) (e : ℕ) : ℚ :=
  (List.range e).foldl (fun a k => max (precs k) a) 0

lemma cycle_trace_eq (save_iter cycle : ℕ) (precs : ℕ → ℚ) : ∀ E : ℕ,
    cycle_trace save_iter E cycle precs =
      ((List.range E).flatMap (fun e =>
        epoch_writes save_iter cycle e (best_before precs e) (precs e)),
       best_before precs E)
  | 0 => by simp [cycle_trace, best_before]
  | E + 1 => by
    unfold cycle_trace
    rw [List.range_succ, List.foldl_append]
    have hE := cycle_trace_eq save_iter cycle precs E
    unfold cycle_trace at hE
    rw [hE]
    have hbest : best_before precs (E + 1) = max (precs E) (best_before precs E) := by
      unfold best_before
      rw [List.range_succ, List.foldl_append]
      rfl
    simp [List.range_succ, hbest]

lemma mem_epoch_writes (s c e : ℕ) (best p : ℚ) (w : CkptWrite) :
    w ∈ epoch_writes s c e best p ↔
      w = ⟨CkptFile.latest, c, e⟩ ∨
      (p > best ∧ w = ⟨CkptFile.best, c, e⟩) ∨
      ((e + 1) % s = 0 ∧ w = ⟨CkptFile.history (e + 1), c, e⟩) := by
  unfold epoch_writes
  by_cases h1 : p > best <;> by_cases h2 : (e + 1) % s = 0 <;>
    simp [h1, h2]

lemma mem_cycle_trace (s E c : ℕ) (precs : ℕ → ℚ) (w : CkptWrite) :
    w ∈ (cycle_trace s E c precs).1 ↔
      ∃ e < E, w ∈ epoch_writes s c e (best_before precs e) (precs e) := by
  rw [cycle_trace_eq]
  simp [List.mem_flatMap, List.mem_range]

lemma mem_run_trace (s E C : ℕ) (precs : ℕ → ℕ → ℚ) (w : CkptWrite) :
    w ∈ run_trace s E C precs ↔
      ∃ c < C, w ∈ (cycle_trace s E c (precs c)).1 := by
  unfold run_trace
  simp [List.mem_flatMap, List.mem_range]

/-- Counterexample to C8 as stated: with save_iter = 1, one epoch per cycle
and two cycles, both cycles write a checkpoint holding different data to the
same history file checkpoint_001, so the history file of the first cycle is
overwritten by a later epoch of the run. -/
theorem c8_counterexample :
    (⟨CkptFile.history 1, 0, 0⟩ : CkptWrite) ∈ run_trace 1 1 2 (fun _ _ => 0) ∧
    (⟨CkptFile.history 1, 1, 0⟩ : CkptWrite) ∈ run_trace 1 1 2 (fun _ _ => 0) ∧
    (⟨CkptFile.history 1, 0, 0⟩ : CkptWrite) ≠ ⟨CkptFile.history 1, 1, 0⟩ := by
  have htrace : run_trace 1 1 2 (fun _ _ => 0) =
      [⟨CkptFile.latest, 0, 0⟩, ⟨CkptFile.history 1, 0, 0⟩,
       ⟨CkptFile.latest, 1, 0⟩, ⟨CkptFile.history 1, 1, 0⟩] := by
    norm_num [run_trace, cycle_trace, epoch_writes, List.range_succ]
  rw [htrace]
  refine ⟨by simp, by simp, by decide⟩

/-- C8 (amended): every epoch of every cycle writes the latest checkpoint;
it is copied to the best checkpoint exactly when the validation
top-1 accuracy of that epoch strictly exceeds the best seen so far in the cycle (starting
from 0); it is copied to the zero-padded epoch-numbered history file exactly
when (epoch + 1) is a multiple of save_iter; and within one cycle no history
file is ever written twice — but the same history names are reused by later
cycles, so across cycles history files are overwritten. -/
theorem c8_checkpoint_policy_amended (s E C : ℕ) (precs : ℕ → ℕ → ℚ) :
    (∀ c < C, ∀ e < E,
      (⟨CkptFile.latest, c, e⟩ : CkptWrite) ∈ run_trace s E C precs) ∧
    (∀ c < C, ∀ e < E,
      ((⟨CkptFile.best, c, e⟩ : CkptWrite) ∈ run_trace s E C precs ↔
        precs c e > best_before (precs c) e)) ∧
    (∀ c < C, ∀ e < E,
      ((⟨CkptFile.history (e + 1), c, e⟩ : CkptWrite) ∈ run_trace s E C precs ↔
        (e + 1) % s = 0)) ∧
    (∀ c k (w1 w2 : CkptWrite), w1 ∈ (cycle_trace s E c (precs c)).1 →
      w2 ∈ (cycle_trace s E c (precs c)).1 →
      w1.file = CkptFile.history k → w2.file = CkptFile.history k →
      w1 = w2) := by
  refine ⟨?_, ?_, ?_, ?_⟩
  · intro c hc e he
    rw [mem_run_trace]
    exact ⟨c, hc, (mem_cycle_trace s E c (precs c) _).2
      ⟨e, he, (mem_epoch_writes s c e _ _ _).2 (Or.inl rfl)⟩⟩
  · intro c hc e he
    constructor
    · intro hmem
      rw [mem_run_trace] at hmem
      obtain ⟨c', _, hcyc⟩ := hmem
      rw [mem_cycle_trace] at hcyc
      obtain ⟨e', _, hep⟩ := hcyc
      rw [mem_epoch_writes] at hep
      rcases hep with h | ⟨hgt, h⟩ | ⟨_, h⟩
      · exact absurd (congrArg CkptWrite.file h) (by simp)
      · obtain ⟨_, hc', he'⟩ := CkptWrite.mk.injEq .. ▸ h
        subst hc'
        subst he'
        exact hgt
      · exact absurd (congrArg CkptWrite.file h) (by simp)
    · intro hgt
      rw [mem_run_trace]
      exact ⟨c, hc, (mem_cycle_trace s E c (precs c) _).2
        ⟨e, he, (mem_epoch_writes s c e _ _ _).2 (Or.inr (Or.inl ⟨hgt, rfl⟩))⟩⟩
  · intro c hc e he
    constructor
    · intro hmem
      rw [mem_run_trace] at hmem
      obtain ⟨c', _, hcyc⟩ := hmem
      rw [mem_cycle_trace] at hcyc
      obtain ⟨e', _, hep⟩ := hcyc
      rw [mem_epoch_writes] at hep
      rcases hep with h | ⟨_, h⟩ | ⟨hmod, h⟩
      · exact absurd (congrArg CkptWrite.file h) (by simp)
      · exact absurd (congrArg CkptWrite.file h) (by simp)
      · obtain ⟨hk, _, he'⟩ := CkptWrite.mk.injEq .. ▸ h
        have : e = e' := by
          exact he'
        subst this
        exact hmod
    · intro hmod
      rw [mem_run_trace]
      exact ⟨c, hc, (mem_cycle_trace s E c (precs c) _).2
        ⟨e, he, (mem_epoch_writes s c e _ _ _).2 (Or.inr (Or.inr ⟨hmod, rfl⟩))⟩⟩
  · intro c k w1 w2 h1 h2 hf1 hf2
    have hchar : ∀ w : CkptWrite, w ∈ (cycle_trace s E c (precs c)).1 →
        w.file = CkptFile.history k → w = ⟨CkptFile.history k, c, k - 1⟩ := by
      intro w hw hwf
      rw [mem_cycle_trace] at hw
      obtain ⟨e, _, hep⟩ := hw
      rw [mem_epoch_writes] at hep
      rcases hep with h | ⟨_, h⟩ | ⟨_, h⟩
      · rw [h] at hwf
        exact absurd hwf (by simp)
      · rw [h] at hwf
        exact absurd hwf (by simp)
      · rw [h] at hwf ⊢
        simp only [CkptFile.history.injEq] at hwf
        subst hwf
        simp
    rw [hchar w1 h1 hf1, hchar w2 h2 hf2]

/-- Witness for C8 (amended) at save_iter = 2, three epochs, one cycle. -/
theorem c8_witness :
    (⟨CkptFile.latest, 0, 2⟩ : CkptWrite) ∈
      run_trace 2 3 1 (fun _ _ => 0) ∧
    ¬ (⟨CkptFile.history 3, 0, 2⟩ : CkptWrite) ∈
      run_trace 2 3 1 (fun _ _ => 0) ∧
    ((⟨CkptFile.history 2, 0, 1⟩ : CkptWrite) ∈
      run_trace 2 3 1 (fun _ _ => 0)) := by
  have h := c8_checkpoint_policy_amended 2 3 1 (fun _ _ => 0)
  refine ⟨h.1 0 (by omega) 2 (by omega), ?_, ?_⟩
  · intro hmem
    have := (h.2.2.1 0 (by omega) 2 (by omega)).1 hmem
    omega
  · exact (h.2.2.1 0 (by omega) 1 (by omega)).2 (by omega)

/-- A stored checkpoint as saved by train_seg: epoch number, model weights
(an opaque tag here), best top-1 accuracy and best mAP (the arch string is
irrelevant to resuming and omitted). -/
structure Checkpoint where
  epoch : ℕ
  state_dict : ℕ
  best_prec1 : ℚ
  best_mAP : ℚ
deriving DecidableEq

/-- The training state assembled before the epoch loop of a cycle. -/
structure TrainInit where
  start_epoch : ℕ
  best_prec1 : ℚ
  best_mAP : ℚ
  model_state : ℕ
  warned_missing : Bool
deriving DecidableEq

/-- The resume block of train_seg: best_prec1 = 0, best_mAP = 0,
start_epoch = 0; if args.resume is a nonempty path naming an existing
checkpoint file, start_epoch, best_prec1 and the model weights are loaded
from it (best_mAP is left at 0); if the file is missing, a warning is
printed and training continues from the fresh model. -/
def resume_init (resume : String) (fs : String → Option Checkpoint)
    (fresh_model : ℕ) : TrainInit :=
  let base : TrainInit := ⟨0, 0, 0, fresh_model, false⟩
  if resume = "" then base
  else
    match fs resume with
    | some ck =>
        { base with
            start_epoch := ck.epoch
            best_prec1 := ck.best_prec1
            model_state := ck.state_dict }
    | none => { base with warned_missing := true }

/-- A concrete checkpoint used to exhibit the resume behaviour. -/
def ck9 : Checkpoint := ⟨3, 42, 7, 5⟩

/-- A concrete one-file filesystem containing ck9 under the path ck. -/
def fs9 : String → Option Checkpoint :=
  fun p => if p = "ck" then some ck9 else none

/-- Counterexample to C9 as stated: resuming from an existing checkpoint
whose stored best mAP is 5 leaves the best-mAP tracker at 0 — the resume
block restores epoch, best top-1 accuracy and the weights, but never reads
best_mAP from the checkpoint. -/
theorem c9_counterexample :
    (resume_init "ck" fs9 99).start_epoch = 3 ∧
    (resume_init "ck" fs9 99).best_prec1 = 7 ∧
    (resume_init "ck" fs9 99).model_state = 42 ∧
    ck9.best_mAP = 5 ∧
    (resume_init "ck" fs9 99).best_mAP ≠ ck9.best_mAP := by
  have h : resume_init "ck" fs9 99 = ⟨3, 7, 0, 42, false⟩ := by
    simp [resume_init, fs9, ck9]
  rw [h]
  refine ⟨rfl, rfl, rfl, rfl, ?_⟩
  show (0 : ℚ) ≠ ck9.best_mAP
  show (0 : ℚ) ≠ 5
  norm_num

/-- C9 (amended): on resume with a nonempty checkpoint path, if the file
exists, model weights, the epoch counter and the best top-1 accuracy tracker
are restored before the epoch loop (the best-mAP tracker stays at its fresh
value 0); if the file is missing, this is reported as a warning and training
proceeds from the fresh model instead of failing. -/
theorem c9_resume_amended (resume : String) (fs : String → Option Checkpoint)
    (fresh : ℕ) :
    (∀ ck, resume ≠ "" → fs resume = some ck →
      resume_init resume fs fresh =
        ⟨ck.epoch, ck.best_prec1, 0, ck.state_dict, false⟩) ∧
    (resume ≠ "" → fs resume = none →
      resume_init resume fs fresh = ⟨0, 0, 0, fresh, true⟩) ∧
    (resume = "" →
      resume_init resume fs fresh = ⟨0, 0, 0, fresh, false⟩) := by
  refine ⟨?_, ?_, ?_⟩
  · intro ck hne hfs
    simp [resume_init, hne, hfs]
  · intro hne hfs
    simp [resume_init, hne, hfs]
  · intro he
    simp [resume_init, he]

/-- Witness for C9 (amended) on the concrete one-file filesystem. -/
theorem c9_witness :
    resume_init "ck" fs9 99 = ⟨3, 7, 0, 42, false⟩ ∧
    resume_init "missing" fs9 99 = ⟨0, 0, 0, 99, true⟩ := by
  constructor
  · have h := (c9_resume_amended "ck" fs9 99).1 ck9 (by decide)
      (by simp [fs9])
    rw [h]
    rfl
  · have h := (c9_resume_amended "missing" fs9 99).2.1 (by decide)
      (by simp [fs9])
    rw [h]

end Segment
